import Mathlib

/-!
# r2uploader: key derivation, progress accounting, batch upload, file enumeration

A shallow embedding of `src/r2uploader.go` and `src/main.go`.

Conventions of the embedding:

* A Go `string` is a `Str`, a list of Unicode code points (the strings are taken
  to be valid UTF-8, which is what `strings.Map` iterates over).
* `path/filepath` is the Unix flavour: the separator is `/` and there is no
  volume name.  `Base`, `Clean` and `Join` follow the Go standard library.
* `int64` values are integers wrapped into the signed 64-bit range by `wrap64`;
  `/` on `int64` is truncated division and panics (here: `none`) on a zero
  divisor.
* The object store, the signer, the clock and the file system are the
  environment: their answers are inputs of the functions that consult them.
-/

namespace R2Uploader

/-! ## Strings and paths -/

/-- A Go string as a sequence of code points. -/
abbrev Str := List Char

/-- The constant `filepath.Separator` on Unix. -/
def Separator : Char := '/'

/-- The test `os.IsPathSeparator` on Unix. -/
def IsPathSeparator (c : Char) : Bool := c == '/'

/-- The function `strings.Map` for a mapping that never returns a negative rune. -/
def stringsMap (mapping : Char → Char) (s : Str) : Str := s.map mapping

/-- The function `strings.ReplaceAll(s, old, new)` where `old` and `new` are
one-character strings, as in `strings.ReplaceAll(key, "\\", "/")`. -/
def stringsReplaceAll (s : Str) (old new : Char) : Str :=
  s.map (fun c => if c = old then new else c)

/-- First loop of `filepath.Base`: strip trailing slashes. -/
def stripTrailing (path : Str) : Str :=
  (path.reverse.dropWhile IsPathSeparator).reverse

/-- Second loop of `filepath.Base`: keep what follows the last separator
(everything when there is none). -/
def lastElement (path : Str) : Str :=
  (path.reverse.takeWhile (fun c => !IsPathSeparator c)).reverse

/-- The function `filepath.Base`. -/
def Base (path : Str) : Str :=
  if path = [] then ['.']
  else
    let path := lastElement (stripTrailing path)
    if path = [] then [Separator] else path

/-- The elements of a path: the maximal runs between separators
(`"a//b"` has the elements `a`, the empty one, and `b`). -/
def splitElems : Str → List Str
  | [] => [[]]
  | c :: t =>
    if IsPathSeparator c then [] :: splitElems t
    else
      match splitElems t with
      | [] => [[c]]
      | e :: es => (c :: e) :: es

/-- The write buffer of `filepath.Clean`: `out` is the text written so far
(its length is `out.w`) and `dotdot` the index where `..` must stop. -/
structure CleanState where
  out : Str
  dotdot : Nat
deriving DecidableEq, Repr

/-- The inner loop of the `..` case of `Clean`, after the first `out.w--`:
`for out.w > dotdot && !os.IsPathSeparator(out.index(out.w)) { out.w-- }`. -/
def backtrackLoop (buf : Str) (dotdot : Nat) : Nat → Nat
  | 0 => 0
  | w + 1 =>
    if w + 1 > dotdot && !IsPathSeparator (buf.getD (w + 1) Separator) then
      backtrackLoop buf dotdot w
    else w + 1

/-- Remove the last element of the buffer, down to the previous separator. -/
def backtrack (out : Str) (dotdot : Nat) : Str :=
  out.take (backtrackLoop out dotdot (out.length - 1))

/-- One iteration of the main loop of `Clean`, which consumes one path element. -/
def cleanStep (rooted : Bool) (st : CleanState) (e : Str) : CleanState :=
  if e = [] then st
  else if e = ['.'] then st
  else if e = ['.', '.'] then
    if st.out.length > st.dotdot then
      { st with out := backtrack st.out st.dotdot }
    else if !rooted then
      let out := (if st.out.length > 0 then st.out ++ [Separator] else st.out) ++ ['.', '.']
      { out := out, dotdot := out.length }
    else st
  else
    let out :=
      if (rooted && st.out.length != 1) || (!rooted && st.out.length != 0) then
        st.out ++ [Separator]
      else st.out
    { st with out := out ++ e }

/-- The function `filepath.Clean` on Unix. -/
def Clean (path : Str) : Str :=
  match path with
  | [] => ['.']
  | c :: rest =>
    let rooted := IsPathSeparator c
    let init : CleanState := if rooted then ⟨[Separator], 1⟩ else ⟨[], 0⟩
    let elems := splitElems (if rooted then rest else path)
    let st := elems.foldl (cleanStep rooted) init
    if st.out = [] then ['.'] else st.out

/-- The function `strings.Join(elems, "/")`. -/
def joinSep : List Str → Str
  | [] => []
  | [e] => e
  | e :: es => e ++ Separator :: joinSep es

/-- The function `filepath.Join`: the elements from the first non-empty one on,
joined by the separator and cleaned; the empty string when all are empty. -/
def Join (elem : List Str) : Str :=
  match elem.dropWhile (fun e => e.isEmpty) with
  | [] => []
  | es => Clean (joinSep es)

/-! ## Key derivation of `UploadFile` -/

/-- The mapping passed to `strings.Map` in `UploadFile`. -/
def safeRune (r : Char) : Char :=
  if r = '[' ∨ r = ']' ∨ r = '(' ∨ r = ')' ∨ r = ' ' then '_' else r

/-- The local `safeFileName` of `UploadFile`. -/
def safeFileName (filePath : Str) : Str :=
  stringsMap safeRune (Base filePath)

/-- The local `key` of `UploadFile` (lines 94-112 of `r2uploader.go`). -/
def uploadKey (filePath baseDir : Str) : Str :=
  if baseDir ≠ [] then
    stringsReplaceAll (Join [baseDir, safeFileName filePath]) '\\' '/'
  else safeFileName filePath

/-! ## Progress accounting: `progressReader` -/

/-- Wrap an integer into the signed 64-bit range (Go `int64` arithmetic). -/
def wrap64 (x : Int) : Int := (x + 2 ^ 63) % 2 ^ 64 - 2 ^ 63

/-- Go `int64` division: truncated, and a run-time panic (`none`) when the
divisor is zero. -/
def div64 (a b : Int) : Option Int :=
  if b = 0 then none else some (wrap64 (Int.tdiv a b))

/-- The struct `progressReader` without its file handle: the answers of the
underlying `os.File.Read` are arguments of `Read`. -/
structure progressReader where
  size : Int
  read : Int
  lastUpdate : Int
deriving DecidableEq, Repr

/-- What one call of `progressReader.Read` does when it does not panic. -/
structure ReadResult where
  /-- The returned byte count. -/
  n : Int
  /-- The returned error (`none` is `nil`). -/
  err : Option Str
  /-- The local `currentPercent`. -/
  currentPercent : Int
  /-- Whether the progress line was printed. -/
  emitted : Bool
  /-- The reader after the call. -/
  reader : progressReader
deriving DecidableEq, Repr

/-- The method `progressReader.Read`.  `n` and `err` are what the underlying
file read returned and `now` is `time.Now().Unix()`; `none` is a panic. -/
def progressReader.Read (r : progressReader) (n : Int) (err : Option Str) (now : Int) :
    Option ReadResult :=
  let read := wrap64 (r.read + n)
  match div64 (wrap64 (read * 100)) r.size with
  | none => none
  | some currentPercent =>
    match div64 (wrap64 (r.lastUpdate * 100)) r.size with
    | none => none
    | some lastPercent =>
      let emit : Bool :=
        decide (currentPercent > lastPercent) || decide (wrap64 (now - r.lastUpdate) ≥ 3)
      some
        { n := n
          err := err
          currentPercent := currentPercent
          emitted := emit
          reader :=
            { size := r.size
              read := read
              lastUpdate := if emit then now else r.lastUpdate } }

/-- The reader that `UploadFile` creates: `read` is zero and `lastUpdate` is
the time of creation. -/
def newProgressReader (size now : Int) : progressReader :=
  { size := size, read := 0, lastUpdate := now }

/-- One call of `Read` as the environment sees it: the byte count and error
of the underlying read, and the clock. -/
structure ReadCall where
  n : Int
  err : Option Str
  now : Int
deriving DecidableEq, Repr

/-- A sequence of `Read` calls on one reader; `none` when one of them panics. -/
def readAll (r : progressReader) : List ReadCall → Option (List ReadResult)
  | [] => some []
  | c :: cs =>
    match r.Read c.n c.err c.now with
    | none => none
    | some o =>
      match readAll o.reader cs with
      | none => none
      | some os => some (o :: os)

/-! ## Batch upload: `UploadFile` and `uploadFiles` -/

/-- The struct `FileInfo` of `main.go`. -/
structure FileInfo where
  Path : Str
  Size : Int
deriving DecidableEq, Repr

/-- What the environment answers while `UploadFile` handles one file. -/
structure Transfer where
  /-- The error of `os.Open`, if any. -/
  openErr : Option Str
  /-- The answer of `file.Stat`: the error, or `fileInfo.Size()`. -/
  stat : Except Str Int
  /-- The clock when the progress reader is created. -/
  now : Int
  /-- The first read of the body: `uploader.Upload` fills its first part
  buffer from the body before it sends any request. -/
  firstRead : ReadCall
  /-- The later reads of the body. -/
  moreReads : List ReadCall
  /-- The error of `uploader.Upload` when no read panics, if any. -/
  uploadErr : Option Str

/-- How a call ends: with a value, with an error, or in a run-time panic that
nothing recovers. -/
inductive Result (α : Type) where
  /-- The call returns a value and a `nil` error. -/
  | ok (a : α)
  /-- The call returns an error with this message. -/
  | error (e : Str)
  /-- The call panics. -/
  | panicked
deriving DecidableEq, Repr

/-- The method `R2Uploader.UploadFile`.  The file is opened and statted, the
key is derived, a progress reader is created with the stat'ed size, and
`uploader.Upload` reads the body through `progressReader.Read`; a panic of
`Read` ends the call, otherwise the answer of `Upload` decides. -/
def UploadFile (t : Transfer) (filePath baseDir : Str) : Result Str :=
  match t.openErr with
  | some e => .error ("unable to open file ".toList ++ filePath ++ ": ".toList ++ e)
  | none =>
    match t.stat with
    | .error e => .error ("unable to get file info: ".toList ++ e)
    | .ok size =>
      let key := uploadKey filePath baseDir
      match readAll (newProgressReader size t.now) (t.firstRead :: t.moreReads) with
      | none => .panicked
      | some _ =>
        match t.uploadErr with
        | some e =>
          .error ("unable to upload file ".toList ++ filePath ++ ": ".toList ++ e)
        | none => .ok key

/-- What `uploadFiles` does that is visible outside. -/
inductive Event where
  /-- The method `UploadFile` is called for a path. -/
  | attempt (path : Str)
  /-- The object for a path is stored under a key. -/
  | uploaded (path key : Str)
  /-- The method `GetPresignedURL` is called for a key. -/
  | linkRequest (key : Str)
  /-- The line with the link number `i`, the key and the URL is printed. -/
  | linkLine (i : Nat) (key url : Str)
  /-- The warning for a key that could not be signed is printed. -/
  | warning (key e : Str)
deriving DecidableEq, Repr

/-- The environment of one run of `uploadFiles`. -/
structure UploadEnv where
  /-- The error of `NewR2Uploader`, if any. -/
  newUploader : Option Str
  /-- The answer of `os.Stat(sourcePath)`: the error, or whether it is a directory. -/
  sourceStat : Except Str Bool
  /-- What the environment answers during the transfer of the `i`-th file. -/
  transfer : Nat → Transfer
  /-- The answer of the `i`-th call of `GetPresignedURL`, for its key. -/
  sign : Nat → Str → Except Str Str

/-- The first loop of `uploadFiles`, from the `i`-th file on: the events, and
the keys appended to `uploadedKeys`, the error returned, or the panic. -/
def uploadLoop (env : UploadEnv) (baseDir : Str) :
    Nat → List FileInfo → List Event × Result (List Str)
  | _, [] => ([], .ok [])
  | i, file :: rest =>
    match UploadFile (env.transfer i) file.Path baseDir with
    | .error e =>
      ([.attempt file.Path],
        .error ("failed to upload ".toList ++ file.Path ++ ": ".toList ++ e))
    | .panicked => ([.attempt file.Path], .panicked)
    | .ok key =>
      let (events, r) := uploadLoop env baseDir (i + 1) rest
      (.attempt file.Path :: .uploaded file.Path key :: events,
        match r with
        | .error e => .error e
        | .panicked => .panicked
        | .ok keys => .ok (key :: keys))

/-- The second loop of `uploadFiles`, from the `i`-th key on. -/
def linkLoop (env : UploadEnv) : Nat → List Str → List Event
  | _, [] => []
  | i, key :: rest =>
    (match env.sign i key with
      | .error e => [.linkRequest key, .warning key e]
      | .ok url => [.linkRequest key, .linkLine (i + 1) key url])
      ++ linkLoop env (i + 1) rest

/-- The function `uploadFiles`: the events, and how the call ends (`ok` is a
`nil` error). -/
def uploadFiles (env : UploadEnv) (files : List FileInfo) (sourcePath : Str) :
    List Event × Result Unit :=
  match env.newUploader with
  | some e => ([], .error ("failed to create uploader: ".toList ++ e))
  | none =>
    match env.sourceStat with
    | .error e => ([], .error ("failed to get source info: ".toList ++ e))
    | .ok isDir =>
      let baseDir : Str := if isDir then Base sourcePath else []
      match uploadLoop env baseDir 0 files with
      | (events, .error e) => (events, .error e)
      | (events, .panicked) => (events, .panicked)
      | (events, .ok uploadedKeys) => (events ++ linkLoop env 0 uploadedKeys, .ok ())

/-- The transfer ends with the object stored: `UploadFile` returns the key. -/
def Stores (t : Transfer) : Prop :=
  ∀ p d : Str, UploadFile t p d = .ok (uploadKey p d)

/-- The paths for which `UploadFile` was called, in order. -/
def attempts : List Event → List Str
  | [] => []
  | .attempt p :: es => p :: attempts es
  | _ :: es => attempts es

/-- The stored objects, as pairs of source path and key, in order. -/
def uploads : List Event → List (Str × Str)
  | [] => []
  | .uploaded p k :: es => (p, k) :: uploads es
  | _ :: es => uploads es

/-- The keys for which a link was requested, in order. -/
def linkRequests : List Event → List Str
  | [] => []
  | .linkRequest k :: es => k :: linkRequests es
  | _ :: es => linkRequests es

/-- The lines printed by the link loop (links and warnings), in order. -/
def linkReports : List Event → List Event
  | [] => []
  | .linkLine i k u :: es => .linkLine i k u :: linkReports es
  | .warning k e :: es => .warning k e :: linkReports es
  | _ :: es => linkReports es

/-! ## File enumeration: `getFilesInfo` -/

/-- A snapshot of what is found at a path of the file system. -/
inductive Node where
  /-- A non-directory entry with its size. -/
  | file (size : Int)
  /-- A directory with its entries, in the order of `readDirNames` (sorted by name). -/
  | dir (entries : List (Str × Node))
  /-- A directory whose names cannot be read. -/
  | unreadable (e : Str)
  /-- An entry for which `lstat` fails. -/
  | broken (e : Str)

/-- The answer of `os.Stat` for an entry: the error, or `IsDir()` and `Size()`
(the size of a directory is not used by the program and is taken to be `0`). -/
def Node.stat : Node → Except Str (Bool × Int)
  | .file size => .ok (false, size)
  | .dir _ => .ok (true, 0)
  | .unreadable _ => .ok (true, 0)
  | .broken e => .error e

/-- The file system as `getFilesInfo` consults it.  The path handed to
`filepath.Walk` is taken not to be a symbolic link, so that `os.Lstat` and
`os.Stat` agree on it. -/
structure FS where
  /-- The function `filepath.EvalSymlinks`. -/
  evalSymlinks : Str → Except Str Str
  /-- What is found at a path (the error when nothing can be found). -/
  entry : Str → Except Str Node

/-- The call `os.Stat(path)`. -/
def FS.Stat (fs : FS) (path : Str) : Except Str (Bool × Int) :=
  match fs.entry path with
  | .error e => .error e
  | .ok node => node.stat

/-- The function `walk` of `path/filepath` with the callback of `getFilesInfo`
inlined: `files` is the slice collected so far; the callback returns every
error it is given, which stops the walk. -/
def walk (path : Str) (files : List FileInfo) : Node → Except Str (List FileInfo)
  | .file size => .ok (files ++ [{ Path := path, Size := size }])
  | .unreadable e => .error e
  | .broken e => .error e
  | .dir entries => walkNames path files entries
where
  /-- The loop `for _, name := range names` of `walk`. -/
  walkNames (path : Str) (files : List FileInfo) :
    List (Str × Node) → Except Str (List FileInfo)
  | [] => .ok files
  | (name, node) :: rest =>
    match walk (Join [path, name]) files node with
    | .error e => .error e
    | .ok files => walkNames path files rest

/-- The loop of `getFilesInfo` that stats every collected file again; `all`
is the slice that is returned when every file is still there. -/
def verifyFiles (fs : FS) (all : List FileInfo) : List FileInfo → Except Str (List FileInfo)
  | [] => .ok all
  | file :: rest =>
    match fs.Stat file.Path with
    | .error e =>
      .error ("error accessing file ".toList ++ file.Path ++ ": ".toList ++ e)
    | .ok _ => verifyFiles fs all rest

/-- The local `cleanPath` of `getFilesInfo`. -/
def cleanPathOf (fs : FS) (path : Str) : Str :=
  match fs.evalSymlinks (Clean path) with
  | .ok p => p
  | .error _ => path

/-- The function `getFilesInfo`. -/
def getFilesInfo (fs : FS) (path : Str) : Except Str (List FileInfo) :=
  let cleanPath := cleanPathOf fs path
  match fs.entry cleanPath with
  | .error e =>
    .error ("error accessing path: ".toList ++ e ++ "\nPath tried: ".toList ++ cleanPath)
  | .ok node =>
    match node.stat with
    | .error e =>
      .error ("error accessing path: ".toList ++ e ++ "\nPath tried: ".toList ++ cleanPath)
    | .ok (true, _) =>
      match walk cleanPath [] node with
      | .error e => .error ("error walking directory: ".toList ++ e)
      | .ok files => verifyFiles fs files files
    | .ok (false, size) =>
      let files := [{ Path := cleanPath, Size := size : FileInfo }]
      verifyFiles fs files files

/-! ### The entries of a tree, for stating what `getFilesInfo` returns -/

/-- The addresses (child indices from the root) of the non-directory entries
of a tree, in depth-first order, each directory in the order of its entries. -/
def Node.fileAddrs : Node → List (List Nat)
  | .file _ => [[]]
  | .unreadable _ => []
  | .broken _ => []
  | .dir entries => below 0 entries
where
  /-- The addresses below the entries of a directory, the first of which has index `i`. -/
  below (i : Nat) : List (Str × Node) → List (List Nat)
  | [] => []
  | (_, node) :: rest => (node.fileAddrs.map (fun a => i :: a)) ++ below (i + 1) rest

/-- The number of non-directory entries of a tree. -/
def Node.countFiles : Node → Nat
  | .file _ => 1
  | .unreadable _ => 0
  | .broken _ => 0
  | .dir entries => count entries
where
  /-- The number of non-directory entries below the entries of a directory. -/
  count : List (Str × Node) → Nat
  | [] => 0
  | (_, node) :: rest => node.countFiles + count rest

/-- The entry at an address below `node`, with its path: each step goes to a
child of a directory and extends the path by the name of the child. -/
def descend : Str → Node → List Nat → Option (Str × Node)
  | path, node, [] => some (path, node)
  | path, .dir entries, i :: a =>
    match entries.get? i with
    | some (name, child) => descend (Join [path, name]) child a
    | none => none
  | _, _, _ :: _ => none

/-- The descriptor `f` is the non-directory entry at address `a` below `node`. -/
def DescribesAt (root : Str) (node : Node) (f : FileInfo) (a : List Nat) : Prop :=
  descend root node a = some (f.Path, .file f.Size)


/-! ## Predicates and sample inputs of the statements -/

/-- A plain path segment: a non-empty name other than `.` and `..` that
contains neither a slash nor a backslash. -/
def PlainSeg (s : Str) : Prop :=
  s ≠ [] ∧ '/' ∉ s ∧ '\\' ∉ s ∧ s ≠ ['.'] ∧ s ≠ ['.', '.']

instance (s : Str) : Decidable (PlainSeg s) := by unfold PlainSeg; infer_instance

/-- A name of a directory entry: non-empty, without a slash, and neither `.` nor `..`. -/
def NameSeg (s : Str) : Prop :=
  s ≠ [] ∧ '/' ∉ s ∧ s ≠ ['.'] ∧ s ≠ ['.', '.']

instance (s : Str) : Decidable (NameSeg s) := by unfold NameSeg; infer_instance

/-- The path with the given segments, absolute when `rooted`. -/
def pathOf (rooted : Bool) (segs : List Str) : Str :=
  (if rooted then [Separator] else []) ++ joinSep segs

/-- Every entry of the tree has a name that a directory entry can have. -/
def Node.namesOk : Node → Prop
  | .file _ => True
  | .unreadable _ => True
  | .broken _ => True
  | .dir entries => allOk entries
where
  /-- Every entry of the list, and every entry below it, has such a name. -/
  allOk : List (Str × Node) → Prop
  | [] => True
  | (name, node) :: rest => NameSeg name ∧ node.namesOk ∧ allOk rest

/-- The events of the files that were stored under the base directory `d`. -/
def storedEvents (d : Str) : List FileInfo → List Event
  | [] => []
  | f :: fs => .attempt f.Path :: .uploaded f.Path (uploadKey f.Path d) :: storedEvents d fs

/-- The line that the link loop prints for the `i`-th key. -/
def linkReport (env : UploadEnv) (ik : Nat × Str) : Event :=
  match env.sign ik.1 ik.2 with
  | .error e => .warning ik.2 e
  | .ok url => .linkLine (ik.1 + 1) ik.2 url

/-- The answers for a file of the given size that is read in one piece and stored. -/
def readWhole (size now : Int) : Transfer :=
  { openErr := none
    stat := .ok size
    now := now
    firstRead := { n := size, err := none, now := now }
    moreReads := [{ n := 0, err := some "EOF".toList, now := now }]
    uploadErr := none }

/-- The answers for a file that cannot be opened. -/
def openFailure (e : Str) (now : Int) : Transfer :=
  { openErr := some e
    stat := .ok 0
    now := now
    firstRead := { n := 0, err := none, now := now }
    moreReads := []
    uploadErr := none }

/-- A batch of three files of the directory `docs`. -/
def scenarioDFiles : List FileInfo :=
  [{ Path := "docs/one.txt".toList, Size := 10 },
   { Path := "docs/two.txt".toList, Size := 20 },
   { Path := "docs/three.txt".toList, Size := 30 }]

/-- An environment in which the transfer of the second file fails. -/
def scenarioDEnv : UploadEnv :=
  { newUploader := none
    sourceStat := .ok true
    transfer := fun i =>
      if i = 1 then
        { readWhole 20 1700000000 with uploadErr := some "connection reset".toList }
      else readWhole 10 1700000000
    sign := fun _ key => .ok ("https://r2.example/".toList ++ key) }

/-- An environment in which every transfer succeeds and the first signing call fails. -/
def signFailsEnv : UploadEnv :=
  { newUploader := none
    sourceStat := .ok true
    transfer := fun _ => readWhole 10 1700000000
    sign := fun i key =>
      if i = 0 then .error "no credentials".toList
      else .ok ("https://r2.example/".toList ++ key) }

/-- A batch of three files of the directory `docs`, the second of which is empty. -/
def emptySecondFiles : List FileInfo :=
  [{ Path := "docs/one.txt".toList, Size := 10 },
   { Path := "docs/empty.txt".toList, Size := 0 },
   { Path := "docs/three.txt".toList, Size := 30 }]

/-- An environment for `emptySecondFiles`: the second file has size zero, the
others are stored. -/
def emptySecondEnv : UploadEnv :=
  { newUploader := none
    sourceStat := .ok true
    transfer := fun i => if i = 1 then readWhole 0 1700000000 else readWhole 10 1700000000
    sign := fun _ key => .ok ("https://r2.example/".toList ++ key) }

/-- A batch of two files of the directory `docs`, the first of which is empty. -/
def emptyFirstFiles : List FileInfo :=
  [{ Path := "docs/empty.txt".toList, Size := 0 },
   { Path := "docs/locked.txt".toList, Size := 20 }]

/-- An environment for `emptyFirstFiles`: the first file has size zero and the
second cannot be opened. -/
def emptyFirstEnv : UploadEnv :=
  { newUploader := none
    sourceStat := .ok true
    transfer := fun i =>
      if i = 0 then readWhole 0 1700000000
      else openFailure "permission denied".toList 1700000000
    sign := fun _ key => .ok ("https://r2.example/".toList ++ key) }

/-- The directory `photos` with two files and a subdirectory with one file. -/
def photosTree : Node :=
  .dir
    [("a (1).jpg".toList, .file 2048),
     ("b.jpg".toList, .file 1024),
     ("sub".toList, .dir [("c.png".toList, .file 10)])]

/-- A file system that holds `photosTree` at `photos`. -/
def photosFS : FS :=
  { evalSymlinks := fun p => .ok p
    entry := fun p =>
      if p = "photos".toList then .ok photosTree
      else if p = "photos/a (1).jpg".toList then .ok (.file 2048)
      else if p = "photos/b.jpg".toList then .ok (.file 1024)
      else if p = "photos/sub".toList then .ok (.dir [("c.png".toList, .file 10)])
      else if p = "photos/sub/c.png".toList then .ok (.file 10)
      else .error "no such file or directory".toList }

/-! ## Lemmas on paths -/

/-- The model of `filepath.Clean` agrees with the test table of the Go library. -/
theorem Clean_table :
    Clean "".toList = ".".toList ∧
    Clean "abc".toList = "abc".toList ∧
    Clean "abc/def".toList = "abc/def".toList ∧
    Clean "a/b/c".toList = "a/b/c".toList ∧
    Clean ".".toList = ".".toList ∧
    Clean "..".toList = "..".toList ∧
    Clean "../..".toList = "../..".toList ∧
    Clean "../../abc".toList = "../../abc".toList ∧
    Clean "/abc".toList = "/abc".toList ∧
    Clean "/".toList = "/".toList ∧
    Clean "abc/".toList = "abc".toList ∧
    Clean "abc/def/".toList = "abc/def".toList ∧
    Clean "a/b/c/".toList = "a/b/c".toList ∧
    Clean "./".toList = ".".toList ∧
    Clean "../".toList = "..".toList ∧
    Clean "../../".toList = "../..".toList ∧
    Clean "/abc/".toList = "/abc".toList ∧
    Clean "abc//def//ghi".toList = "abc/def/ghi".toList ∧
    Clean "//abc".toList = "/abc".toList ∧
    Clean "///abc".toList = "/abc".toList ∧
    Clean "//abc//".toList = "/abc".toList ∧
    Clean "abc//".toList = "abc".toList ∧
    Clean "abc/./def".toList = "abc/def".toList ∧
    Clean "/./abc/def".toList = "/abc/def".toList ∧
    Clean "abc/.".toList = "abc".toList ∧
    Clean "abc/def/ghi/../jkl".toList = "abc/def/jkl".toList ∧
    Clean "abc/def/../ghi/../jkl".toList = "abc/jkl".toList ∧
    Clean "abc/def/..".toList = "abc".toList ∧
    Clean "abc/def/../..".toList = ".".toList ∧
    Clean "/abc/def/../..".toList = "/".toList ∧
    Clean "abc/def/../../..".toList = "..".toList ∧
    Clean "/abc/def/../../..".toList = "/".toList ∧
    Clean "abc/def/../../../ghi/jkl/../../../mno".toList = "../../mno".toList ∧
    Clean "/../abc".toList = "/abc".toList ∧
    Clean "abc/./../def".toList = "def".toList ∧
    Clean "abc//./../def".toList = "def".toList ∧
    Clean "abc/../../././../def".toList = "../../def".toList := by
  decide

/-- The model of `filepath.Base` agrees with the test table of the Go library. -/
theorem Base_table :
    Base "".toList = ".".toList ∧
    Base ".".toList = ".".toList ∧
    Base "/.".toList = ".".toList ∧
    Base "/".toList = "/".toList ∧
    Base "////".toList = "/".toList ∧
    Base "x/".toList = "x".toList ∧
    Base "abc".toList = "abc".toList ∧
    Base "abc/def".toList = "def".toList ∧
    Base "a/b/.x".toList = ".x".toList ∧
    Base "a/b/c.".toList = "c.".toList ∧
    Base "a/b/c.x".toList = "c.x".toList := by
  decide

/-- The model of `filepath.Join` agrees with the test table of the Go library. -/
theorem Join_table :
    Join [] = "".toList ∧
    Join ["".toList] = "".toList ∧
    Join ["a".toList] = "a".toList ∧
    Join ["a".toList, "b".toList] = "a/b".toList ∧
    Join ["a".toList, "".toList] = "a".toList ∧
    Join ["".toList, "b".toList] = "b".toList ∧
    Join ["/".toList, "a".toList] = "/a".toList ∧
    Join ["/".toList, "a/b".toList] = "/a/b".toList ∧
    Join ["/".toList, "".toList] = "/".toList ∧
    Join ["/a".toList, "b".toList] = "/a/b".toList ∧
    Join ["a".toList, "/b".toList] = "a/b".toList ∧
    Join ["a/".toList, "b".toList] = "a/b".toList ∧
    Join ["a/".toList, "".toList] = "a".toList ∧
    Join ["".toList, "".toList] = "".toList := by
  decide

theorem splitElems_seg (a : Str) (h : '/' ∉ a) : splitElems a = [a] := by
  induction a with
  | nil => rfl
  | cons c t ih =>
    have hc : c ≠ '/' := fun e => h (by simp [e])
    have ht : '/' ∉ t := fun e => h (by simp [e])
    simp [splitElems, IsPathSeparator, hc, ih ht]

theorem splitElems_append (a b : Str) (h : '/' ∉ a) :
    splitElems (a ++ '/' :: b) = a :: splitElems b := by
  induction a with
  | nil => simp [splitElems, IsPathSeparator]
  | cons c t ih =>
    have hc : c ≠ '/' := fun e => h (by simp [e])
    have ht : '/' ∉ t := fun e => h (by simp [e])
    simp [splitElems, IsPathSeparator, hc, ih ht]

theorem cleanStep_plain (st : CleanState) (e : Str) (he : PlainSeg e) :
    cleanStep false st e =
      { st with out := (if st.out.length != 0 then st.out ++ [Separator] else st.out) ++ e } := by
  obtain ⟨h1, _, _, h4, h5⟩ := he
  simp [cleanStep, h1, h4, h5]

theorem Clean_two_plain (d s : Str) (hd : PlainSeg d) (hs : PlainSeg s) :
    Clean (d ++ '/' :: s) = d ++ '/' :: s := by
  obtain ⟨c, t, rfl⟩ := List.exists_cons_of_ne_nil hd.1
  have hc : (c == '/') = false := by
    simpa using fun e : c = '/' => hd.2.1 (by simp [e])
  have hsplit : splitElems (c :: (t ++ '/' :: s)) = [c :: t, s] := by
    have := splitElems_append (c :: t) s hd.2.1
    rw [splitElems_seg _ hs.2.1] at this
    simpa using this
  simp only [Clean, List.cons_append, IsPathSeparator, hc, Bool.false_eq_true, if_false]
  rw [hsplit]
  simp [cleanStep_plain _ _ hd, cleanStep_plain _ _ hs, Separator]

theorem safeRune_eq_iff (c ch : Char)
    (hch : ch ≠ '_' ∧ ch ≠ '[' ∧ ch ≠ ']' ∧ ch ≠ '(' ∧ ch ≠ ')' ∧ ch ≠ ' ') :
    safeRune c = ch ↔ c = ch := by
  obtain ⟨h0, h1, h2, h3, h4, h5⟩ := hch
  unfold safeRune
  split
  · rename_i h
    constructor
    · intro e; exact absurd e.symm h0
    · intro e
      subst e
      rcases h with h | h | h | h | h
      · exact absurd h h1
      · exact absurd h h2
      · exact absurd h h3
      · exact absurd h h4
      · exact absurd h h5
  · rfl

theorem not_mem_map_safeRune (s : Str) (ch : Char)
    (hch : ch ≠ '_' ∧ ch ≠ '[' ∧ ch ≠ ']' ∧ ch ≠ '(' ∧ ch ≠ ')' ∧ ch ≠ ' ')
    (h : ch ∉ s) : ch ∉ s.map safeRune := by
  intro hm
  obtain ⟨c, hc, e⟩ := List.mem_map.1 hm
  rw [safeRune_eq_iff c ch hch] at e
  exact h (e ▸ hc)

theorem map_safeRune_eq_dots (n : Nat) (s : Str)
    (h : s.map safeRune = List.replicate n '.') : s = List.replicate n '.' := by
  induction s generalizing n with
  | nil => simpa using h
  | cons c t ih =>
    cases n with
    | zero => simp at h
    | succ m =>
      simp only [List.map_cons, List.replicate_succ, List.cons.injEq] at h
      rw [(safeRune_eq_iff c '.' (by decide)).1 h.1, ih m h.2, List.replicate_succ]

theorem PlainSeg_map_safeRune (s : Str) (h : PlainSeg s) : PlainSeg (s.map safeRune) := by
  obtain ⟨h1, h2, h3, h4, h5⟩ := h
  refine ⟨by simpa using h1, not_mem_map_safeRune s '/' (by decide) h2,
    not_mem_map_safeRune s '\\' (by decide) h3, ?_, ?_⟩
  · intro e
    exact h4 (map_safeRune_eq_dots 1 s e)
  · intro e
    exact h5 (map_safeRune_eq_dots 2 s e)

theorem stringsReplaceAll_id (s : Str) (old new : Char) (h : old ∉ s) :
    stringsReplaceAll s old new = s := by
  unfold stringsReplaceAll
  induction s with
  | nil => rfl
  | cons c t ih =>
    have hc : c ≠ old := fun e => h (by simp [e])
    have ht : old ∉ t := fun e => h (by simp [e])
    simp [hc, ih ht]

theorem Join_two (d s : Str) (hd : d ≠ []) : Join [d, s] = Clean (d ++ '/' :: s) := by
  obtain ⟨c, t, rfl⟩ := List.exists_cons_of_ne_nil hd
  simp [Join, joinSep, Separator]

theorem uploadKey_of_plain (p d : Str) (hd : PlainSeg d) (hp : PlainSeg (Base p)) :
    uploadKey p d = d ++ '/' :: safeFileName p := by
  have hs : PlainSeg (safeFileName p) := PlainSeg_map_safeRune _ hp
  have hno : '\\' ∉ d ++ '/' :: safeFileName p := by
    intro hm
    rcases List.mem_append.1 hm with h | h
    · exact hd.2.2.1 h
    · rcases List.mem_cons.1 h with h | h
      · exact absurd h (by decide)
      · exact hs.2.2.1 h
  unfold uploadKey
  rw [if_pos hd.1, Join_two _ _ hd.1, Clean_two_plain d _ hd hs, stringsReplaceAll_id _ _ _ hno]

theorem Base_append_seg (dir name : Str) (h1 : name ≠ []) (h2 : '/' ∉ name) :
    Base (dir ++ '/' :: name) = name := by
  have hrev : ∀ c ∈ name.reverse, IsPathSeparator c = false := by
    intro c hc
    have : c ≠ '/' := fun e => h2 (by simpa [e] using hc)
    simpa [IsPathSeparator] using this
  have hne : name.reverse ≠ [] := by simpa using h1
  obtain ⟨c, t, hct⟩ := List.exists_cons_of_ne_nil hne
  have hc : IsPathSeparator c = false := hrev c (by simp [hct])
  have hstrip : stripTrailing (dir ++ '/' :: name) = dir ++ '/' :: name := by
    unfold stripTrailing
    have hname : name = t.reverse ++ [c] := by
      have := congrArg List.reverse hct
      simpa using this
    simp [hct, List.dropWhile, hc]
    exact hname.symm
  have hlast : lastElement (dir ++ '/' :: name) = name := by
    unfold lastElement
    have : (dir ++ '/' :: name).reverse = name.reverse ++ '/' :: dir.reverse := by simp
    rw [this, List.takeWhile_append_of_pos]
    · simp [List.takeWhile, IsPathSeparator]
    · intro c hc; simpa using hrev c hc
  unfold Base
  simp [hstrip, hlast, h1]

/-! ## Claims on the key derivation -/

/-- C1, as the code has it: with an empty base directory the key is the
sanitized base name `s`; with a plain base directory `d` and a plain base
name it is `d`, a slash, and `s`.  `s` has the length of the base name and
differs from it exactly by `_` in the place of each `[`, `]`, `(`, `)` and
space. -/
theorem uploadKey_spec (p d : Str) (h : d = [] ∨ (PlainSeg d ∧ PlainSeg (Base p))) :
    uploadKey p d = (if d = [] then safeFileName p else d ++ '/' :: safeFileName p) ∧
    (safeFileName p).length = (Base p).length ∧
    ∀ i : Nat, (safeFileName p)[i]? =
      ((Base p)[i]?).map (fun c => if c ∈ ['[', ']', '(', ')', ' '] then '_' else c) := by
  refine ⟨?_, by simp [safeFileName, stringsMap], ?_⟩
  · rcases h with h | ⟨hd, hp⟩
    · simp [uploadKey, h]
    · rw [if_neg hd.1]
      exact uploadKey_of_plain p d hd hp
  · intro i
    simp only [safeFileName, stringsMap, List.getElem?_map]
    congr 1
    funext c
    simp [safeRune]

/-- C1, an instance: the file `photos/a (1).jpg` uploaded under `photos`. -/
theorem uploadKey_spec_witness :
    ("photos".toList = [] ∨
      (PlainSeg "photos".toList ∧ PlainSeg (Base "photos/a (1).jpg".toList))) ∧
    (uploadKey "photos/a (1).jpg".toList "photos".toList =
        (if "photos".toList = [] then safeFileName "photos/a (1).jpg".toList
          else "photos".toList ++ '/' :: safeFileName "photos/a (1).jpg".toList) ∧
      (safeFileName "photos/a (1).jpg".toList).length =
        (Base "photos/a (1).jpg".toList).length ∧
      ∀ i : Nat, (safeFileName "photos/a (1).jpg".toList)[i]? =
        ((Base "photos/a (1).jpg".toList)[i]?).map
          (fun c => if c ∈ ['[', ']', '(', ')', ' '] then '_' else c)) :=
  ⟨Or.inr ⟨by decide, by decide⟩,
    uploadKey_spec "photos/a (1).jpg".toList "photos".toList
      (Or.inr ⟨by decide, by decide⟩)⟩

/-- C1 as stated fails: the key is not always the base directory, a slash and
the sanitized name.  The base directories `.` (a directory given as `.`) and
`/`, a base directory or a file name with a backslash, and the base names `.`
and `..` all give another key. -/
theorem uploadKey_not_concat :
    (uploadKey "b.jpg".toList ".".toList = "b.jpg".toList ∧
      uploadKey "b.jpg".toList ".".toList ≠
        ".".toList ++ '/' :: safeFileName "b.jpg".toList) ∧
    (uploadKey "b.jpg".toList "/".toList = "/b.jpg".toList ∧
      uploadKey "b.jpg".toList "/".toList ≠
        "/".toList ++ '/' :: safeFileName "b.jpg".toList) ∧
    (uploadKey "b.jpg".toList "my\\dir".toList = "my/dir/b.jpg".toList ∧
      uploadKey "b.jpg".toList "my\\dir".toList ≠
        "my\\dir".toList ++ '/' :: safeFileName "b.jpg".toList) ∧
    (uploadKey "photos/a\\b.jpg".toList "photos".toList = "photos/a/b.jpg".toList ∧
      uploadKey "photos/a\\b.jpg".toList "photos".toList ≠
        "photos".toList ++ '/' :: safeFileName "photos/a\\b.jpg".toList) ∧
    (uploadKey "photos/.".toList "photos".toList = "photos".toList ∧
      uploadKey "photos/.".toList "photos".toList ≠
        "photos".toList ++ '/' :: safeFileName "photos/.".toList) ∧
    (uploadKey "photos/..".toList "photos".toList = ".".toList ∧
      uploadKey "photos/..".toList "photos".toList ≠
        "photos".toList ++ '/' :: safeFileName "photos/..".toList) := by
  decide

/-- C2, as the code has it: under the base directory `photos` the files named
`a (1).jpg` and `b.jpg`, wherever they lie, get the keys `photos/a__1_.jpg`
(the space and the bracket each become an underscore) and `photos/b.jpg`. -/
theorem uploadKey_scenarioB (dir : Str) :
    uploadKey (dir ++ "/a (1).jpg".toList) "photos".toList = "photos/a__1_.jpg".toList ∧
    uploadKey (dir ++ "/b.jpg".toList) "photos".toList = "photos/b.jpg".toList ∧
    uploadKey "a (1).jpg".toList "photos".toList = "photos/a__1_.jpg".toList ∧
    uploadKey "b.jpg".toList "photos".toList = "photos/b.jpg".toList := by
  have ha : Base (dir ++ "/a (1).jpg".toList) = "a (1).jpg".toList :=
    Base_append_seg dir "a (1).jpg".toList (by decide) (by decide)
  have hb : Base (dir ++ "/b.jpg".toList) = "b.jpg".toList :=
    Base_append_seg dir "b.jpg".toList (by decide) (by decide)
  refine ⟨?_, ?_, by decide, by decide⟩
  · rw [uploadKey_of_plain _ _ (by decide) (by rw [ha]; decide), safeFileName, ha]
    decide
  · rw [uploadKey_of_plain _ _ (by decide) (by rw [hb]; decide), safeFileName, hb]
    decide

/-- C2 as stated fails: the key of `photos/a (1).jpg` under `photos` is
`photos/a__1_.jpg`, with two underscores, not `photos/a_1_.jpg`. -/
theorem uploadKey_scenarioB_not_spec :
    uploadKey "photos/a (1).jpg".toList "photos".toList = "photos/a__1_.jpg".toList ∧
    uploadKey "photos/a (1).jpg".toList "photos".toList ≠ "photos/a_1_.jpg".toList := by
  decide

/-- C3 at the failing input: the base directory `my photos` goes into the key
as it is, so the key of `b.jpg` contains a space. -/
theorem uploadKey_keeps_space_of_baseDir :
    uploadKey "my photos/b.jpg".toList "my photos".toList = "my photos/b.jpg".toList ∧
    ' ' ∈ uploadKey "my photos/b.jpg".toList "my photos".toList := by
  decide

/-- C4, as the code has it: within a batch the key depends on a file only
through its sanitized base name; two files get the same key exactly when
their sanitized base names are equal (for an empty base directory, or a plain
base directory and plain base names). -/
theorem uploadKey_eq_iff (d p1 p2 : Str)
    (h : d = [] ∨ (PlainSeg d ∧ PlainSeg (Base p1) ∧ PlainSeg (Base p2))) :
    uploadKey p1 d = uploadKey p2 d ↔ safeFileName p1 = safeFileName p2 := by
  rcases h with h | ⟨hd, h1, h2⟩
  · simp [uploadKey, h]
  · rw [uploadKey_of_plain p1 d hd h1, uploadKey_of_plain p2 d hd h2]
    simp

/-- C4, an instance: two files of `photos` whose names differ only by a space
against an underscore. -/
theorem uploadKey_eq_iff_witness :
    ("photos".toList = [] ∨ (PlainSeg "photos".toList ∧
      PlainSeg (Base "photos/a b.jpg".toList) ∧ PlainSeg (Base "photos/a_b.jpg".toList))) ∧
    (uploadKey "photos/a b.jpg".toList "photos".toList =
        uploadKey "photos/a_b.jpg".toList "photos".toList ↔
      safeFileName "photos/a b.jpg".toList = safeFileName "photos/a_b.jpg".toList) :=
  ⟨Or.inr ⟨by decide, by decide, by decide⟩,
    uploadKey_eq_iff "photos".toList "photos/a b.jpg".toList "photos/a_b.jpg".toList
      (Or.inr ⟨by decide, by decide, by decide⟩)⟩

/-- C4 as stated fails: under the base directory `photos` the files with the
different relative paths `a/x.jpg` and `b/x.jpg` get the same key
`photos/x.jpg`. -/
theorem uploadKey_not_injective :
    "a/x.jpg".toList ≠ "b/x.jpg".toList ∧
    uploadKey ("photos".toList ++ '/' :: "a/x.jpg".toList) "photos".toList =
      "photos/x.jpg".toList ∧
    uploadKey ("photos".toList ++ '/' :: "b/x.jpg".toList) "photos".toList =
      "photos/x.jpg".toList := by
  decide

/-! ## Claims on the progress accounting -/

theorem wrap64_of_range (x : Int) (h1 : -(2 ^ 63) ≤ x) (h2 : x < 2 ^ 63) : wrap64 x = x := by
  unfold wrap64
  norm_num at h1 h2 ⊢
  omega

theorem div64_of_nonneg (a b : Int) (ha : 0 ≤ a) (ha2 : a < 2 ^ 63) (hb : 0 < b) :
    div64 a b = some (a / b) := by
  unfold div64
  rw [if_neg (by omega), Int.tdiv_eq_ediv ha (le_of_lt hb)]
  have h0 : 0 ≤ a / b := Int.ediv_nonneg ha (le_of_lt hb)
  have h1 : a / b ≤ a := Int.ediv_le_self b ha
  rw [wrap64_of_range _ (by norm_num at *; omega) (by omega)]

theorem div64_isSome (a b : Int) (hb : b ≠ 0) : ∃ q, div64 a b = some q := by
  unfold div64
  rw [if_neg hb]
  exact ⟨_, rfl⟩

theorem Read_of_range (r : progressReader) (n : Int) (err : Option Str) (now : Int)
    (hsize : 0 < r.size) (hrange : r.size * 100 < 2 ^ 63) (h0 : 0 ≤ r.read) (hn : 0 ≤ n)
    (hle : r.read + n ≤ r.size) :
    ∃ o, r.Read n err now = some o ∧ o.n = n ∧ o.err = err ∧
      o.currentPercent = (r.read + n) * 100 / r.size ∧
      o.reader.read = r.read + n ∧ o.reader.size = r.size := by
  have hw : wrap64 (r.read + n) = r.read + n :=
    wrap64_of_range _ (by norm_num at *; omega) (by norm_num at *; omega)
  have hw2 : wrap64 ((r.read + n) * 100) = (r.read + n) * 100 :=
    wrap64_of_range _ (by norm_num at *; omega) (by norm_num at *; omega)
  have hd : div64 ((r.read + n) * 100) r.size = some ((r.read + n) * 100 / r.size) :=
    div64_of_nonneg _ _ (by omega) (by norm_num at *; omega) hsize
  obtain ⟨q, hq⟩ := div64_isSome (wrap64 (r.lastUpdate * 100)) r.size (by omega)
  unfold progressReader.Read
  simp only [hw, hw2, hd, hq]
  exact ⟨_, rfl, rfl, rfl, rfl, rfl, rfl⟩

theorem readAll_of_range (r : progressReader) (calls : List ReadCall)
    (hsize : 0 < r.size) (hrange : r.size * 100 < 2 ^ 63) (h0 : 0 ≤ r.read)
    (hn : ∀ c ∈ calls, 0 ≤ c.n) (hsum : r.read + (calls.map (fun c => c.n)).sum ≤ r.size) :
    ∃ outs, readAll r calls = some outs ∧
      List.Forall₂ (fun c o => o.n = c.n ∧ o.err = c.err) calls outs ∧
      List.Chain (fun a b => a ≤ b) (r.read * 100 / r.size)
        (outs.map (fun o => o.currentPercent)) ∧
      ∀ o ∈ outs, o.currentPercent ≤ 100 ∧
        o.currentPercent = o.reader.read * 100 / r.size := by
  induction calls generalizing r with
  | nil => exact ⟨[], rfl, List.Forall₂.nil, List.Chain.nil, by simp⟩
  | cons c cs ih =>
    have hc : 0 ≤ c.n := hn c (by simp)
    have hcs : ∀ c ∈ cs, 0 ≤ c.n := fun x hx => hn x (by simp [hx])
    have hcssum : 0 ≤ (cs.map (fun c => c.n)).sum :=
      List.sum_nonneg (by
        intro x hx
        obtain ⟨y, hy, rfl⟩ := List.mem_map.1 hx
        exact hcs y hy)
    simp only [List.map_cons, List.sum_cons] at hsum
    obtain ⟨o, ho, hon, hoe, hop, hor, hos⟩ :=
      Read_of_range r c.n c.err c.now hsize hrange h0 hc (by omega)
    obtain ⟨os, hos1, hos2, hos3, hos4⟩ :=
      ih o.reader (by rw [hos]; exact hsize) (by rw [hos]; exact hrange)
        (by rw [hor]; omega) hcs (by rw [hor, hos]; omega)
    refine ⟨o :: os, ?_, List.Forall₂.cons ⟨hon, hoe⟩ hos2, ?_, ?_⟩
    · simp only [readAll, ho, hos1]
    · rw [hos, hor, ← hop] at hos3
      simp only [List.map_cons]
      refine List.Chain.cons ?_ hos3
      rw [hop]
      exact Int.ediv_le_ediv hsize (by omega)
    · intro x hx
      rcases List.mem_cons.1 hx with rfl | hx
      · refine ⟨?_, by rw [hop, hor]⟩
        rw [hop]
        exact Int.ediv_le_of_le_mul hsize (by omega)
      · have := hos4 x hx
        rw [hos] at this
        exact this

/-- C6: for a job with `0 < size` and `size * 100` in the signed 64-bit range,
and `Read` calls whose underlying reads return non-negative counts that total
at most `size`, no call panics, each call returns the count and error of the
underlying read, and the percentage `read * 100 / size` it computes is at
most 100 and non-decreasing from one call to the next. -/
theorem percent_monotone_bounded (size now0 : Int) (calls : List ReadCall)
    (hsize : 0 < size) (hrange : size * 100 < 2 ^ 63)
    (hn : ∀ c ∈ calls, 0 ≤ c.n) (hsum : (calls.map (fun c => c.n)).sum ≤ size) :
    ∃ outs, readAll (newProgressReader size now0) calls = some outs ∧
      List.Forall₂ (fun c o => o.n = c.n ∧ o.err = c.err) calls outs ∧
      List.Chain' (fun a b => a ≤ b) (outs.map (fun o => o.currentPercent)) ∧
      ∀ o ∈ outs, o.currentPercent ≤ 100 ∧
        o.currentPercent = o.reader.read * 100 / size := by
  obtain ⟨outs, h1, h2, h3, h4⟩ :=
    readAll_of_range (newProgressReader size now0) calls hsize hrange (le_refl 0) hn
      (by simpa [newProgressReader] using hsum)
  have h5 : List.Chain' (fun a b : Int => a ≤ b)
      (((newProgressReader size now0).read * 100 / (newProgressReader size now0).size) ::
        outs.map (fun o => o.currentPercent)) := h3
  exact ⟨outs, h1, h2, h5.tail, h4⟩

/-- C6, an instance: a file of 1000 bytes read in two calls of 400 and 600 bytes. -/
theorem percent_monotone_bounded_witness :
    ((0 : Int) < 1000 ∧ (1000 : Int) * 100 < 2 ^ 63 ∧
      (∀ c ∈ [ReadCall.mk 400 none 1700000001, ReadCall.mk 600 none 1700000002], 0 ≤ c.n) ∧
      ([ReadCall.mk 400 none 1700000001, ReadCall.mk 600 none 1700000002].map
        (fun c => c.n)).sum ≤ 1000) ∧
    ∃ outs, readAll (newProgressReader 1000 1700000000)
        [ReadCall.mk 400 none 1700000001, ReadCall.mk 600 none 1700000002] = some outs ∧
      List.Forall₂ (fun c o => o.n = c.n ∧ o.err = c.err)
        [ReadCall.mk 400 none 1700000001, ReadCall.mk 600 none 1700000002] outs ∧
      List.Chain' (fun a b => a ≤ b) (outs.map (fun o => o.currentPercent)) ∧
      ∀ o ∈ outs, o.currentPercent ≤ 100 ∧
        o.currentPercent = o.reader.read * 100 / 1000 :=
  ⟨⟨by decide, by decide, by decide, by decide⟩,
    percent_monotone_bounded 1000 1700000000
      [ReadCall.mk 400 none 1700000001, ReadCall.mk 600 none 1700000002]
      (by decide) (by decide) (by decide) (by decide)⟩

/-- C5 at the failing inputs.  A file of 1000 bytes, reader created at second
1700000000: the first call (100 bytes, three seconds later) prints at 10%;
the second call in the same second brings the percentage to 50% and prints
nothing.  A file of 2000000000 bytes: the first call prints at 90%; the
second call, one byte later in the same second, prints again at 90%. -/
theorem Read_emission_not_by_percent :
    readAll (newProgressReader 1000 1700000000)
        [ReadCall.mk 100 none 1700000003, ReadCall.mk 400 none 1700000003] =
      some
        [{ n := 100, err := none, currentPercent := 10, emitted := true,
           reader := { size := 1000, read := 100, lastUpdate := 1700000003 } },
         { n := 400, err := none, currentPercent := 50, emitted := false,
           reader := { size := 1000, read := 500, lastUpdate := 1700000003 } }] ∧
    readAll (newProgressReader 2000000000 1700000000)
        [ReadCall.mk 1800000000 none 1700000003, ReadCall.mk 1 none 1700000003] =
      some
        [{ n := 1800000000, err := none, currentPercent := 90, emitted := true,
           reader := { size := 2000000000, read := 1800000000, lastUpdate := 1700000003 } },
         { n := 1, err := none, currentPercent := 90, emitted := true,
           reader := { size := 2000000000, read := 1800000001, lastUpdate := 1700000003 } }] := by
  decide

/-- C10 at the failing input: on a file of size zero every call of `Read`
panics in the division by `r.size`, whatever the underlying read returned. -/
theorem Read_panics_on_empty_file (now0 n : Int) (err : Option Str) (now : Int) :
    (newProgressReader 0 now0).Read n err now = none := by
  simp [progressReader.Read, newProgressReader, div64]

/-! ## Claims on the batch upload -/

theorem Read_isSome_of_size_ne_zero (r : progressReader) (c : ReadCall) (h : r.size ≠ 0) :
    ∃ o, r.Read c.n c.err c.now = some o ∧ o.reader.size = r.size := by
  obtain ⟨q1, hq1⟩ := div64_isSome (wrap64 (wrap64 (r.read + c.n) * 100)) r.size h
  obtain ⟨q2, hq2⟩ := div64_isSome (wrap64 (r.lastUpdate * 100)) r.size h
  unfold progressReader.Read
  simp only [hq1, hq2]
  exact ⟨_, rfl, rfl⟩

theorem readAll_isSome_of_size_ne_zero (r : progressReader) (calls : List ReadCall)
    (h : r.size ≠ 0) : ∃ outs, readAll r calls = some outs := by
  induction calls generalizing r with
  | nil => exact ⟨[], rfl⟩
  | cons c cs ih =>
    obtain ⟨o, ho, hsize⟩ := Read_isSome_of_size_ne_zero r c h
    obtain ⟨os, hos⟩ := ih o.reader (by rw [hsize]; exact h)
    exact ⟨o :: os, by simp only [readAll, ho, hos]⟩

theorem readAll_none_of_size_zero (r : progressReader) (c : ReadCall) (cs : List ReadCall)
    (h : r.size = 0) : readAll r (c :: cs) = none := by
  simp [readAll, progressReader.Read, div64, h]

theorem Stores_of_answers (t : Transfer) (size : Int) (hopen : t.openErr = none)
    (hstat : t.stat = .ok size) (hsize : size ≠ 0) (hup : t.uploadErr = none) : Stores t := by
  intro p d
  obtain ⟨outs, houts⟩ :=
    readAll_isSome_of_size_ne_zero (newProgressReader size t.now) (t.firstRead :: t.moreReads)
      hsize
  simp only [UploadFile, hopen, hstat, houts, hup]

theorem Stores_readWhole (size now : Int) (h : size ≠ 0) : Stores (readWhole size now) :=
  Stores_of_answers _ size rfl rfl h rfl

theorem Stores_of_ok (t : Transfer) (p d key : Str) (h : UploadFile t p d = .ok key) :
    Stores t := by
  intro p2 d2
  unfold UploadFile at h ⊢
  cases ho : t.openErr with
  | some e => simp [ho] at h
  | none =>
    simp only [ho] at h ⊢
    cases hs : t.stat with
    | error e => simp [hs] at h
    | ok size =>
      simp only [hs] at h ⊢
      cases hr : readAll (newProgressReader size t.now) (t.firstRead :: t.moreReads) with
      | none => simp [hr] at h
      | some outs =>
        simp only [hr] at h ⊢
        cases hu : t.uploadErr with
        | some e => simp [hu] at h
        | none => rfl

theorem UploadFile_panicked_of_empty (t : Transfer) (p d : Str) (hopen : t.openErr = none)
    (hstat : t.stat = .ok 0) : UploadFile t p d = .panicked := by
  have h := readAll_none_of_size_zero (newProgressReader 0 t.now) t.firstRead t.moreReads rfl
  simp only [UploadFile, hopen, hstat, h]

theorem attempts_storedEvents (d : Str) (fs : List FileInfo) (rest : List Event) :
    attempts (storedEvents d fs ++ rest) = fs.map (fun f => f.Path) ++ attempts rest := by
  induction fs with
  | nil => rfl
  | cons f fs ih => simp [storedEvents, attempts, ih]

theorem uploads_storedEvents (d : Str) (fs : List FileInfo) (rest : List Event) :
    uploads (storedEvents d fs ++ rest) =
      fs.map (fun f => (f.Path, uploadKey f.Path d)) ++ uploads rest := by
  induction fs with
  | nil => rfl
  | cons f fs ih => simp [storedEvents, uploads, ih]

theorem linkRequests_storedEvents (d : Str) (fs : List FileInfo) (rest : List Event) :
    linkRequests (storedEvents d fs ++ rest) = linkRequests rest := by
  induction fs with
  | nil => rfl
  | cons f fs ih => simp [storedEvents, linkRequests, ih]

theorem linkReports_storedEvents (d : Str) (fs : List FileInfo) (rest : List Event) :
    linkReports (storedEvents d fs ++ rest) = linkReports rest := by
  induction fs with
  | nil => rfl
  | cons f fs ih => simp [storedEvents, linkReports, ih]

/-- The upload loop stops at the first file whose transfer does not end with
the object stored: the files before it are stored, it is attempted, and the
loop ends with its error, wrapped, or with its panic. -/
theorem uploadLoop_stops (env : UploadEnv) (d : Str) (k : Nat) :
    ∀ (files : List FileInfo) (i : Nat) (hk : k < files.length),
      (∀ j, j < k → Stores (env.transfer (i + j))) →
      (∀ key, UploadFile (env.transfer (i + k)) (files.get ⟨k, hk⟩).Path d ≠ .ok key) →
      uploadLoop env d i files =
        (storedEvents d (files.take k) ++ [.attempt (files.get ⟨k, hk⟩).Path],
          match UploadFile (env.transfer (i + k)) (files.get ⟨k, hk⟩).Path d with
          | .error e =>
            .error ("failed to upload ".toList ++ (files.get ⟨k, hk⟩).Path ++ ": ".toList ++ e)
          | _ => .panicked) := by
  induction k with
  | zero =>
    intro files i hk _ hne
    cases files with
    | nil => simp at hk
    | cons f rest =>
      have hne0 : ∀ key, UploadFile (env.transfer i) f.Path d ≠ .ok key := hne
      show uploadLoop env d i (f :: rest) =
        ([.attempt f.Path],
          match UploadFile (env.transfer i) f.Path d with
          | .error e => .error ("failed to upload ".toList ++ f.Path ++ ": ".toList ++ e)
          | _ => .panicked)
      simp only [uploadLoop]
      cases hr : UploadFile (env.transfer i) f.Path d with
      | ok key => exact absurd hr (hne0 key)
      | error e => rfl
      | panicked => rfl
  | succ k ih =>
    intro files i hk hpre hne
    cases files with
    | nil => simp at hk
    | cons f rest =>
      have h0 : UploadFile (env.transfer i) f.Path d = .ok (uploadKey f.Path d) :=
        hpre 0 (by omega) f.Path d
      have hk' : k < rest.length := by simpa using hk
      have hrest := ih rest (i + 1) hk'
        (fun j hj => by
          rw [show i + 1 + j = i + (j + 1) by omega]
          exact hpre (j + 1) (by omega))
        (fun key => by
          rw [show i + 1 + k = i + (k + 1) by omega]
          exact hne key)
      rw [show i + 1 + k = i + (k + 1) by omega] at hrest
      show uploadLoop env d i (f :: rest) =
        (storedEvents d (f :: rest.take k) ++ [.attempt (rest.get ⟨k, hk'⟩).Path],
          match UploadFile (env.transfer (i + (k + 1))) (rest.get ⟨k, hk'⟩).Path d with
          | .error e =>
            .error ("failed to upload ".toList ++ (rest.get ⟨k, hk'⟩).Path ++ ": ".toList ++ e)
          | _ => .panicked)
      simp only [uploadLoop, h0, hrest, storedEvents, List.cons_append]
      cases UploadFile (env.transfer (i + (k + 1))) (rest.get ⟨k, hk'⟩).Path d <;> rfl

theorem uploadLoop_all_stored (env : UploadEnv) (d : Str) (files : List FileInfo) (i : Nat)
    (h : ∀ j, j < files.length → Stores (env.transfer (i + j))) :
    uploadLoop env d i files =
      (storedEvents d files, .ok (files.map (fun f => uploadKey f.Path d))) := by
  induction files generalizing i with
  | nil => rfl
  | cons f rest ih =>
    have h0 : UploadFile (env.transfer i) f.Path d = .ok (uploadKey f.Path d) :=
      h 0 (by simp) f.Path d
    have hrest := ih (i + 1) (fun j hj => by
      rw [show i + 1 + j = i + (j + 1) by omega]
      exact h (j + 1) (by simpa using hj))
    simp only [uploadLoop, h0, hrest, storedEvents, List.map_cons]

theorem linkLoop_spec (env : UploadEnv) (keys : List Str) (i : Nat) :
    attempts (linkLoop env i keys) = [] ∧ uploads (linkLoop env i keys) = [] ∧
    linkRequests (linkLoop env i keys) = keys ∧
    linkReports (linkLoop env i keys) = (keys.enumFrom i).map (linkReport env) := by
  induction keys generalizing i with
  | nil => exact ⟨rfl, rfl, rfl, rfl⟩
  | cons k ks ih =>
    obtain ⟨h1, h2, h3, h4⟩ := ih (i + 1)
    simp only [linkLoop, List.enumFrom_cons, List.map_cons, linkReport]
    cases env.sign i k <;>
      simp [attempts, uploads, linkRequests, linkReports, h1, h2, h3, h4]

/-- Fail-fast on a returned error: when the uploader is created, the source is
found, the files before the `k`-th are stored and `UploadFile` returns an
error for the `k`-th, `uploadFiles` stores exactly the files before it, calls
`UploadFile` for those and for it only, requests and prints no link, and
returns an error whose message contains its path. -/
theorem uploadFiles_stops_at_error (env : UploadEnv) (files : List FileInfo)
    (sourcePath : Str) (isDir : Bool) (k : Nat) (hk : k < files.length) (e : Str)
    (hnew : env.newUploader = none) (hstat : env.sourceStat = .ok isDir)
    (hpre : ∀ j, j < k → Stores (env.transfer j))
    (hfail : UploadFile (env.transfer k) (files.get ⟨k, hk⟩).Path
      (if isDir then Base sourcePath else []) = .error e) :
    uploads (uploadFiles env files sourcePath).1 =
      (files.take k).map
        (fun f => (f.Path, uploadKey f.Path (if isDir then Base sourcePath else []))) ∧
    attempts (uploadFiles env files sourcePath).1 =
      (files.take (k + 1)).map (fun f => f.Path) ∧
    linkRequests (uploadFiles env files sourcePath).1 = [] ∧
    linkReports (uploadFiles env files sourcePath).1 = [] ∧
    (uploadFiles env files sourcePath).2 =
      .error ("failed to upload ".toList ++ (files.get ⟨k, hk⟩).Path ++ ": ".toList ++ e) ∧
    (files.get ⟨k, hk⟩).Path <:+:
      "failed to upload ".toList ++ (files.get ⟨k, hk⟩).Path ++ ": ".toList ++ e := by
  have hloop := uploadLoop_stops env (if isDir then Base sourcePath else []) k files 0 hk
    (by simpa using hpre) (by
      intro key
      rw [Nat.zero_add, hfail]
      exact fun h => Result.noConfusion h)
  rw [Nat.zero_add, hfail] at hloop
  have hrun : uploadFiles env files sourcePath =
      (storedEvents (if isDir then Base sourcePath else []) (files.take k) ++
          [.attempt (files.get ⟨k, hk⟩).Path],
        .error ("failed to upload ".toList ++ (files.get ⟨k, hk⟩).Path ++ ": ".toList ++ e)) := by
    simp only [uploadFiles, hnew, hstat, hloop]
  refine ⟨?_, ?_, ?_, ?_, ?_, ?_⟩
  · rw [hrun, uploads_storedEvents]
    simp [uploads]
  · rw [hrun, attempts_storedEvents, List.take_succ, List.getElem?_eq_getElem hk]
    simp only [attempts, List.map_append, Option.toList, List.map]
    rfl
  · rw [hrun, linkRequests_storedEvents]
    rfl
  · rw [hrun, linkReports_storedEvents]
    rfl
  · rw [hrun]
  · exact ⟨"failed to upload ".toList, ": ".toList ++ e, by simp⟩

/-- A panic ends the batch: when the uploader is created, the source is
found, the files before the `k`-th are stored and the `k`-th is opened and
has the stat'ed size zero, `uploadFiles` panics after the stores of the files
before it and returns nothing. -/
theorem uploadFiles_panics_at_empty (env : UploadEnv) (files : List FileInfo)
    (sourcePath : Str) (isDir : Bool) (k : Nat) (hk : k < files.length)
    (hnew : env.newUploader = none) (hstat : env.sourceStat = .ok isDir)
    (hpre : ∀ j, j < k → Stores (env.transfer j))
    (hopen : (env.transfer k).openErr = none) (hsize : (env.transfer k).stat = .ok 0) :
    uploadFiles env files sourcePath =
      (storedEvents (if isDir then Base sourcePath else []) (files.take k) ++
          [.attempt (files.get ⟨k, hk⟩).Path], .panicked) := by
  have hp := UploadFile_panicked_of_empty (env.transfer k) (files.get ⟨k, hk⟩).Path
    (if isDir then Base sourcePath else []) hopen hsize
  have hloop := uploadLoop_stops env (if isDir then Base sourcePath else []) k files 0 hk
    (by simpa using hpre) (by
      intro key
      rw [Nat.zero_add, hp]
      exact fun h => Result.noConfusion h)
  rw [Nat.zero_add, hp] at hloop
  simp only [uploadFiles, hnew, hstat, hloop]

/-- C7 at the failing inputs.  In a batch of three files whose second file is
empty, the first file is stored and the upload of the second panics in
`Read`: `uploadFiles` returns no error at all.  In a batch whose first file
is empty and whose second file cannot be opened, the panic comes first:
nothing is stored and no error names the second file. -/
theorem uploadFiles_panics_instead_of_error :
    uploadFiles emptySecondEnv emptySecondFiles "docs".toList =
      ([.attempt "docs/one.txt".toList,
        .uploaded "docs/one.txt".toList "docs/one.txt".toList,
        .attempt "docs/empty.txt".toList],
        .panicked) ∧
    uploadFiles emptyFirstEnv emptyFirstFiles "docs".toList =
      ([.attempt "docs/empty.txt".toList], .panicked) ∧
    UploadFile (emptyFirstEnv.transfer 1) "docs/locked.txt".toList "docs".toList =
      .error "unable to open file docs/locked.txt: permission denied".toList := by
  decide

/-- C8: when the uploader is created, the source is found and every transfer
succeeds, `uploadFiles` requests a link for the key of every file, in upload
order, prints for each key either its link or its own warning, whatever the
signer answered for the other keys, and returns no error. -/
theorem uploadFiles_links (env : UploadEnv) (files : List FileInfo) (sourcePath : Str)
    (isDir : Bool) (hnew : env.newUploader = none) (hstat : env.sourceStat = .ok isDir)
    (hall : ∀ j, j < files.length → Stores (env.transfer j)) :
    (uploadFiles env files sourcePath).2 = .ok () ∧
    uploads (uploadFiles env files sourcePath).1 =
      files.map
        (fun f => (f.Path, uploadKey f.Path (if isDir then Base sourcePath else []))) ∧
    attempts (uploadFiles env files sourcePath).1 = files.map (fun f => f.Path) ∧
    linkRequests (uploadFiles env files sourcePath).1 =
      files.map (fun f => uploadKey f.Path (if isDir then Base sourcePath else [])) ∧
    linkReports (uploadFiles env files sourcePath).1 =
      ((files.map
        (fun f => uploadKey f.Path (if isDir then Base sourcePath else []))).enum).map
        (linkReport env) := by
  have hloop := uploadLoop_all_stored env (if isDir then Base sourcePath else []) files 0
    (by simpa using hall)
  have hrun : uploadFiles env files sourcePath =
      (storedEvents (if isDir then Base sourcePath else []) files ++
          linkLoop env 0
            (files.map (fun f => uploadKey f.Path (if isDir then Base sourcePath else []))),
        .ok ()) := by
    simp only [uploadFiles, hnew, hstat, hloop]
  obtain ⟨h1, h2, h3, h4⟩ := linkLoop_spec env
    (files.map (fun f => uploadKey f.Path (if isDir then Base sourcePath else []))) 0
  refine ⟨by rw [hrun], ?_, ?_, ?_, ?_⟩
  · rw [hrun, uploads_storedEvents, h2, List.append_nil]
  · rw [hrun, attempts_storedEvents, h1, List.append_nil]
  · rw [hrun, linkRequests_storedEvents, h3]
  · rw [hrun, linkReports_storedEvents, h4]
    rfl

/-! ## Claims on the file enumeration -/

theorem descend_child (path : Str) (pre rest : List (Str × Node)) (name : Str) (node : Node)
    (a : List Nat) :
    descend path (.dir (pre ++ (name, node) :: rest)) (pre.length :: a) =
      descend (Join [path, name]) node a := by
  have hget : (pre ++ (name, node) :: rest).get? pre.length = some (name, node) := by
    rw [List.get?_eq_getElem?, List.getElem?_append_right (le_refl _)]
    simp
  rw [descend, hget]

theorem describesAt_child (path : Str) (pre rest : List (Str × Node)) (name : Str)
    (node : Node) (D : List FileInfo) (as : List (List Nat))
    (h : List.Forall₂ (DescribesAt (Join [path, name]) node) D as) :
    List.Forall₂ (DescribesAt path (.dir (pre ++ (name, node) :: rest))) D
      (as.map (fun a => pre.length :: a)) := by
  rw [List.forall₂_map_right_iff]
  refine h.imp ?_
  intro f a hfa
  unfold DescribesAt at hfa ⊢
  rw [descend_child]
  exact hfa

mutual
theorem walk_spec : ∀ (node : Node) (path : Str) (files out : List FileInfo),
    walk path files node = .ok out →
    ∃ D, out = files ++ D ∧ List.Forall₂ (DescribesAt path node) D node.fileAddrs ∧
      D.length = node.countFiles
  | .file size, path, files, out, h => by
    simp only [walk, Except.ok.injEq] at h
    refine ⟨[{ Path := path, Size := size }], h.symm, ?_, rfl⟩
    simp [Node.fileAddrs, DescribesAt, descend]
  | .unreadable e, path, files, out, h => by simp [walk] at h
  | .broken e, path, files, out, h => by simp [walk] at h
  | .dir entries, path, files, out, h => by
    simp only [walk] at h
    obtain ⟨D, h1, h2, h3⟩ := walkNames_spec entries [] path files out h
    exact ⟨D, h1, by simpa [Node.fileAddrs] using h2, by simpa [Node.countFiles] using h3⟩
theorem walkNames_spec : ∀ (rest pre : List (Str × Node)) (path : Str)
    (files out : List FileInfo),
    walk.walkNames path files rest = .ok out →
    ∃ D, out = files ++ D ∧
      List.Forall₂ (DescribesAt path (.dir (pre ++ rest))) D
        (Node.fileAddrs.below pre.length rest) ∧
      D.length = Node.countFiles.count rest
  | [], pre, path, files, out, h => by
    simp only [walk.walkNames, Except.ok.injEq] at h
    exact ⟨[], by simp [h], by simp [Node.fileAddrs.below], rfl⟩
  | (name, node) :: rest, pre, path, files, out, h => by
    simp only [walk.walkNames] at h
    cases hw : walk (Join [path, name]) files node with
    | error e => simp [hw] at h
    | ok mid =>
      simp only [hw] at h
      obtain ⟨D1, h1, h2, h3⟩ := walk_spec node (Join [path, name]) files mid hw
      obtain ⟨D2, h4, h5, h6⟩ := walkNames_spec rest (pre ++ [(name, node)]) path mid out h
      refine ⟨D1 ++ D2, by simp [h4, h1], ?_, by simp [Node.countFiles.count, h3, h6]⟩
      simp only [Node.fileAddrs.below]
      refine List.rel_append (describesAt_child path pre rest name node D1 _ h2) ?_
      simpa using h5
end

mutual
theorem fileAddrs_nodup : ∀ node : Node, node.fileAddrs.Nodup
  | .file _ => by simp [Node.fileAddrs]
  | .unreadable _ => by simp [Node.fileAddrs]
  | .broken _ => by simp [Node.fileAddrs]
  | .dir entries => by
    simp only [Node.fileAddrs]
    exact (below_nodup entries 0).1
theorem below_nodup : ∀ (rest : List (Str × Node)) (i : Nat),
    (Node.fileAddrs.below i rest).Nodup ∧
      ∀ a ∈ Node.fileAddrs.below i rest, ∃ j a', a = j :: a' ∧ i ≤ j
  | [], i => by simp [Node.fileAddrs.below]
  | (_, node) :: rest, i => by
    obtain ⟨h1, h2⟩ := below_nodup rest (i + 1)
    have h0 := fileAddrs_nodup node
    simp only [Node.fileAddrs.below]
    constructor
    · rw [List.nodup_append]
      refine ⟨h0.map (fun a b hab => by simpa using hab), h1, ?_⟩
      intro a ha hb
      obtain ⟨a', _, rfl⟩ := List.mem_map.1 ha
      obtain ⟨j, a'', e, hj⟩ := h2 _ hb
      simp only [List.cons.injEq] at e
      omega
    · intro a ha
      rcases List.mem_append.1 ha with ha | ha
      · obtain ⟨a', _, rfl⟩ := List.mem_map.1 ha
        exact ⟨i, a', rfl, le_refl i⟩
      · obtain ⟨j, a', e, hj⟩ := h2 a ha
        exact ⟨j, a', e, by omega⟩
end

theorem descend_regroup (path : Str) (pre rest : List (Str × Node)) (x : Str × Node)
    (a : List Nat) :
    descend path (.dir (pre ++ x :: rest)) a = descend path (.dir ((pre ++ [x]) ++ rest)) a := by
  simp

mutual
theorem mem_fileAddrs : ∀ (node : Node) (path : Str) (a : List Nat),
    a ∈ node.fileAddrs ↔ ∃ p size, descend path node a = some (p, .file size)
  | .file size, path, a => by
    cases a with
    | nil => simp [Node.fileAddrs, descend]
    | cons j a => simp [Node.fileAddrs, descend]
  | .unreadable _, path, a => by
    cases a with
    | nil => simp [Node.fileAddrs, descend]
    | cons j a => simp [Node.fileAddrs, descend]
  | .broken _, path, a => by
    cases a with
    | nil => simp [Node.fileAddrs, descend]
    | cons j a => simp [Node.fileAddrs, descend]
  | .dir entries, path, a => by
    have h := mem_below entries [] path a
    simp only [List.length_nil, List.nil_append, Nat.zero_le, and_true] at h
    simp only [Node.fileAddrs]
    rw [h]
    constructor
    · exact fun hh => hh.1
    · intro hh
      refine ⟨hh, ?_⟩
      cases a with
      | nil =>
        obtain ⟨p, size, e⟩ := hh
        simp [descend] at e
      | cons j a => exact ⟨j, a, rfl⟩
theorem mem_below : ∀ (rest pre : List (Str × Node)) (path : Str) (a : List Nat),
    a ∈ Node.fileAddrs.below pre.length rest ↔
      (∃ p size, descend path (.dir (pre ++ rest)) a = some (p, .file size)) ∧
        ∃ j a', a = j :: a' ∧ pre.length ≤ j
  | [], pre, path, a => by
    simp only [Node.fileAddrs.below, List.not_mem_nil, List.append_nil, false_iff, not_and,
      not_exists]
    rintro ⟨p, size, e⟩ j a' rfl hj
    have : pre.get? j = none := by
      rw [List.get?_eq_getElem?]
      exact List.getElem?_eq_none hj
    rw [descend, this] at e
    simp at e
  | (name, node) :: rest, pre, path, a => by
    have ih1 := mem_fileAddrs node (Join [path, name])
    have ih2 := mem_below rest (pre ++ [(name, node)]) path a
    simp only [List.length_append, List.length_singleton] at ih2
    simp only [Node.fileAddrs.below, List.mem_append, List.mem_map]
    rw [ih2, ← descend_regroup]
    constructor
    · rintro (⟨a', ha', rfl⟩ | ⟨hd, j, a', rfl, hj⟩)
      · refine ⟨?_, pre.length, a', rfl, le_refl _⟩
        rw [descend_child]
        exact (ih1 a').1 ha'
      · exact ⟨hd, j, a', rfl, by omega⟩
    · rintro ⟨hd, j, a', rfl, hj⟩
      by_cases hjp : j = pre.length
      · subst hjp
        left
        refine ⟨a', ?_, rfl⟩
        rw [descend_child] at hd
        exact (ih1 a').2 hd
      · right
        exact ⟨hd, j, a', rfl, by omega⟩
end

theorem verifyFiles_ok (fs : FS) (all files out : List FileInfo)
    (h : verifyFiles fs all files = .ok out) : out = all := by
  induction files with
  | nil =>
    simp only [verifyFiles, Except.ok.injEq] at h
    exact h.symm
  | cons f rest ih =>
    simp only [verifyFiles] at h
    cases hs : fs.Stat f.Path with
    | error e => simp [hs] at h
    | ok r =>
      simp only [hs] at h
      exact ih h

theorem cleanStep_name (rooted : Bool) (st : CleanState) (e : Str) (he : NameSeg e) :
    cleanStep rooted st e =
      { st with out :=
          (if (rooted && st.out.length != 1) || (!rooted && st.out.length != 0) then
            st.out ++ [Separator]
          else st.out) ++ e } := by
  obtain ⟨h1, _, h4, h5⟩ := he
  simp [cleanStep, h1, h4, h5]

theorem foldl_cleanStep_started (rooted : Bool) (segs : List Str)
    (hsegs : ∀ e ∈ segs, NameSeg e) (st : CleanState)
    (hst : (if rooted then 2 else 1) ≤ st.out.length) :
    (segs.foldl (cleanStep rooted) st).out =
      st.out ++ (segs.map (fun e => Separator :: e)).flatten := by
  induction segs generalizing st with
  | nil => simp
  | cons e es ih =>
    have he : NameSeg e := hsegs e (by simp)
    have hes : ∀ x ∈ es, NameSeg x := fun x hx => hsegs x (by simp [hx])
    have hstep : cleanStep rooted st e = { st with out := st.out ++ Separator :: e } := by
      rw [cleanStep_name rooted st e he]
      cases rooted with
      | true =>
        have h1 : (st.out.length != 1) = true := by
          simp only [if_true] at hst
          simp only [bne_iff_ne, ne_eq]
          omega
        simp [h1]
      | false =>
        have h0 : (st.out.length != 0) = true := by
          simp only [Bool.false_eq_true, if_false] at hst
          simp only [bne_iff_ne, ne_eq]
          omega
        simp [h0]
    rw [List.foldl_cons, hstep, ih hes]
    · simp
    · simp only [List.length_append, List.length_cons]
      omega

theorem splitElems_joinSep (segs : List Str) (hne : segs ≠ [])
    (hsegs : ∀ e ∈ segs, '/' ∉ e) : splitElems (joinSep segs) = segs := by
  induction segs with
  | nil => exact absurd rfl hne
  | cons e es ih =>
    cases es with
    | nil => exact splitElems_seg e (hsegs e (by simp))
    | cons e2 es =>
      have h := splitElems_append e (joinSep (e2 :: es)) (hsegs e (by simp))
      have h2 := ih (by simp) (fun x hx => hsegs x (by simp [hx]))
      simp only [joinSep, Separator]
      rw [h, h2]

theorem joinSep_cons (e : Str) (es : List Str) :
    joinSep (e :: es) = e ++ (es.map (fun x => Separator :: x)).flatten := by
  induction es generalizing e with
  | nil => simp [joinSep]
  | cons e2 es ih => simp [joinSep, ih e2]

theorem Clean_pathOf (rooted : Bool) (segs : List Str) (hne : segs ≠ [])
    (hsegs : ∀ e ∈ segs, NameSeg e) : Clean (pathOf rooted segs) = pathOf rooted segs := by
  obtain ⟨e, es, rfl⟩ := List.exists_cons_of_ne_nil hne
  have he : NameSeg e := hsegs e (by simp)
  have hes : ∀ x ∈ es, NameSeg x := fun x hx => hsegs x (by simp [hx])
  have hsplit : splitElems (joinSep (e :: es)) = e :: es :=
    splitElems_joinSep _ (by simp) (fun x hx => (hsegs x hx).2.1)
  obtain ⟨c, t, rfl⟩ := List.exists_cons_of_ne_nil he.1
  have hc : (c == '/') = false := by
    simpa using fun h : c = '/' => he.2.1 (by simp [h])
  cases rooted with
  | true =>
    simp only [pathOf, if_true, Separator, List.singleton_append, Clean, IsPathSeparator,
      beq_self_eq_true]
    rw [hsplit, List.foldl_cons, cleanStep_name true _ _ he]
    simp only [List.length_singleton, bne_self_eq_false, Bool.and_false, Bool.not_true,
      Bool.false_and, Bool.or_self, Bool.false_eq_true, if_false]
    rw [foldl_cleanStep_started true es hes _ (by simp)]
    simp [joinSep_cons, Separator]
  | false =>
    have hj : joinSep ((c :: t) :: es) = c :: (t ++ (es.map (fun x => Separator :: x)).flatten) := by
      rw [joinSep_cons]; rfl
    simp only [pathOf, Bool.false_eq_true, if_false, List.nil_append]
    rw [hj]
    simp only [Clean, IsPathSeparator, hc, Bool.false_eq_true, if_false]
    rw [← hj, hsplit, List.foldl_cons, cleanStep_name false _ _ he]
    simp only [List.length_nil, bne_self_eq_false, Bool.and_false, Bool.not_false,
      Bool.true_and, Bool.or_self, Bool.false_eq_true, if_false, List.nil_append]
    rw [foldl_cleanStep_started false es hes _ (by simp)]
    simp [joinSep_cons, Separator]

theorem joinSep_append (segs : List Str) (hne : segs ≠ []) (n : Str) (ns : List Str) :
    joinSep (segs ++ n :: ns) = joinSep segs ++ Separator :: joinSep (n :: ns) := by
  obtain ⟨e, es, rfl⟩ := List.exists_cons_of_ne_nil hne
  simp [joinSep_cons]

theorem pathOf_ne_nil (rooted : Bool) (segs : List Str) (hne : segs ≠ [])
    (hsegs : ∀ e ∈ segs, NameSeg e) : pathOf rooted segs ≠ [] := by
  obtain ⟨e, es, rfl⟩ := List.exists_cons_of_ne_nil hne
  obtain ⟨c, t, hct⟩ := List.exists_cons_of_ne_nil (hsegs e (by simp)).1
  cases rooted <;> simp [pathOf, joinSep_cons, hct]

theorem Join_pathOf (rooted : Bool) (segs : List Str) (hne : segs ≠ [])
    (hsegs : ∀ e ∈ segs, NameSeg e) (name : Str) (hname : NameSeg name) :
    Join [pathOf rooted segs, name] = pathOf rooted (segs ++ [name]) := by
  rw [Join_two _ _ (pathOf_ne_nil rooted segs hne hsegs)]
  have h : pathOf rooted segs ++ '/' :: name = pathOf rooted (segs ++ [name]) := by
    simp [pathOf, joinSep_append segs hne name [], joinSep, Separator]
  rw [h]
  refine Clean_pathOf rooted _ (by simp) ?_
  intro e he
  rcases List.mem_append.1 he with he | he
  · exact hsegs e he
  · rw [List.mem_singleton.1 he]
    exact hname

theorem allOk_get (entries : List (Str × Node)) (h : Node.namesOk.allOk entries) (i : Nat)
    (name : Str) (child : Node) (hget : entries.get? i = some (name, child)) :
    NameSeg name ∧ child.namesOk := by
  induction entries generalizing i with
  | nil => simp at hget
  | cons x rest ih =>
    obtain ⟨n0, c0⟩ := x
    simp only [Node.namesOk.allOk] at h
    cases i with
    | zero =>
      simp only [List.get?_cons_zero, Option.some.injEq, Prod.mk.injEq] at hget
      rw [← hget.1, ← hget.2]
      exact ⟨h.1, h.2.1⟩
    | succ i =>
      simp only [List.get?_cons_succ] at hget
      exact ih h.2.2 i hget

theorem descend_pathOf (rooted : Bool) (a : List Nat) :
    ∀ (node : Node) (segs : List Str), segs ≠ [] → (∀ e ∈ segs, NameSeg e) → node.namesOk →
      ∀ (p : Str) (n : Node), descend (pathOf rooted segs) node a = some (p, n) →
        ∃ names, names.length = a.length ∧ p = pathOf rooted (segs ++ names) := by
  induction a with
  | nil =>
    intro node segs _ _ _ p n h
    simp only [descend, Option.some.injEq, Prod.mk.injEq] at h
    exact ⟨[], rfl, by simp [h.1]⟩
  | cons i a ih =>
    intro node segs hne hsegs hok p n h
    cases node with
    | file size => simp [descend] at h
    | unreadable e => simp [descend] at h
    | broken e => simp [descend] at h
    | dir entries =>
      rw [descend] at h
      cases hget : entries.get? i with
      | none =>
        rw [hget] at h
        simp at h
      | some x =>
        obtain ⟨name, child⟩ := x
        rw [hget] at h
        simp only at h
        simp only [Node.namesOk] at hok
        obtain ⟨hname, hchild⟩ := allOk_get entries hok i name child hget
        rw [Join_pathOf rooted segs hne hsegs name hname] at h
        obtain ⟨names, hlen, hp⟩ := ih child (segs ++ [name]) (by simp)
          (by
            intro e he
            rcases List.mem_append.1 he with he | he
            · exact hsegs e he
            · rw [List.mem_singleton.1 he]
              exact hname)
          hchild p n h
        exact ⟨name :: names, by simp [hlen], by simp [hp]⟩

theorem pathOf_prefix (rooted : Bool) (segs names : List Str) (hne : segs ≠ [])
    (hnames : names ≠ []) :
    (pathOf rooted segs ++ [Separator]) <+: pathOf rooted (segs ++ names) := by
  obtain ⟨n, ns, rfl⟩ := List.exists_cons_of_ne_nil hnames
  refine ⟨joinSep (n :: ns), ?_⟩
  simp [pathOf, joinSep_append segs hne n ns]

theorem forall₂_mem_left {α β : Type} (R : α → β → Prop) (l1 : List α) (l2 : List β)
    (h : List.Forall₂ R l1 l2) : ∀ x ∈ l1, ∃ y ∈ l2, R x y := by
  induction h with
  | nil => simp
  | cons hxy _ ih =>
    intro x hx
    rcases List.mem_cons.1 hx with rfl | hx
    · exact ⟨_, by simp, hxy⟩
    · obtain ⟨y, hy, hr⟩ := ih x hx
      exact ⟨y, by simp [hy], hr⟩

theorem describesAt_prefix (rooted : Bool) (segs : List Str) (hne : segs ≠ [])
    (hsegs : ∀ e ∈ segs, NameSeg e) (node : Node) (hok : node.namesOk) (f : FileInfo)
    (a : List Nat) (ha : a ≠ []) (h : DescribesAt (pathOf rooted segs) node f a) :
    (pathOf rooted segs ++ [Separator]) <+: f.Path := by
  obtain ⟨names, hlen, hp⟩ := descend_pathOf rooted a node segs hne hsegs hok _ _ h
  rw [hp]
  refine pathOf_prefix rooted segs names hne ?_
  intro e
  apply ha
  rw [e] at hlen
  exact List.length_eq_zero.1 hlen.symm

/-- C9: when `getFilesInfo` succeeds, the cleaned path is a file or a readable
directory.  For a file the result is the one descriptor of that path with its
size.  For a directory the descriptors correspond, position by position and in
traversal order, to the addresses of the non-directory entries of the tree:
each descriptor carries the path and the size of the entry at its address; the
addresses are pairwise different, are exactly the addresses at which a
non-directory entry lies, and all lie below the root; the number of
descriptors is the number of non-directory entries; and when the cleaned path
is a clean path of ordinary names, as are the names in the tree, every
descriptor's path starts with the cleaned path and a separator. -/
theorem getFilesInfo_spec (fs : FS) (path : Str) (files : List FileInfo)
    (h : getFilesInfo fs path = .ok files) :
    ∃ node, fs.entry (cleanPathOf fs path) = .ok node ∧
      ((∃ size, node = .file size ∧
          files = [{ Path := cleanPathOf fs path, Size := size }]) ∨
        (∃ entries, node = .dir entries ∧
          List.Forall₂ (DescribesAt (cleanPathOf fs path) node) files node.fileAddrs ∧
          node.fileAddrs.Nodup ∧
          (∀ a, a ∈ node.fileAddrs ↔
            ∃ p size, descend (cleanPathOf fs path) node a = some (p, .file size)) ∧
          (∀ a ∈ node.fileAddrs, a ≠ []) ∧
          files.length = node.countFiles ∧
          ∀ (rooted : Bool) (segs : List Str), segs ≠ [] → (∀ e ∈ segs, NameSeg e) →
            cleanPathOf fs path = pathOf rooted segs → node.namesOk →
            ∀ f ∈ files, (cleanPathOf fs path ++ [Separator]) <+: f.Path)) := by
  unfold getFilesInfo at h
  simp only at h
  cases hentry : fs.entry (cleanPathOf fs path) with
  | error e => simp [hentry] at h
  | ok node =>
    refine ⟨node, rfl, ?_⟩
    simp only [hentry] at h
    cases node with
    | file size =>
      left
      simp only [Node.stat] at h
      exact ⟨size, rfl, verifyFiles_ok fs _ _ _ h⟩
    | broken e => simp [Node.stat] at h
    | unreadable e => simp [Node.stat, walk] at h
    | dir entries =>
      right
      simp only [Node.stat] at h
      cases hw : walk (cleanPathOf fs path) [] (.dir entries) with
      | error e => simp [hw] at h
      | ok out =>
        simp only [hw] at h
        have hfiles : files = out := verifyFiles_ok fs _ _ _ h
        obtain ⟨D, h1, h2, h3⟩ := walk_spec (.dir entries) (cleanPathOf fs path) [] out hw
        simp only [List.nil_append] at h1
        subst h1
        subst hfiles
        have hne : ∀ a ∈ (Node.dir entries).fileAddrs, a ≠ [] := by
          intro a ha e
          subst e
          obtain ⟨p, size, hd⟩ :=
            (mem_fileAddrs (.dir entries) (cleanPathOf fs path) []).1 ha
          simp [descend] at hd
        refine ⟨entries, rfl, h2, fileAddrs_nodup _, mem_fileAddrs _ _, hne, h3, ?_⟩
        intro rooted segs hsegs1 hsegs2 hroot hok f hf
        obtain ⟨a, ha, hd⟩ := forall₂_mem_left _ _ _ h2 f hf
        rw [hroot] at hd ⊢
        exact describesAt_prefix rooted segs hsegs1 hsegs2 _ hok f a (hne a ha) hd

/-- Scenario D, written out: in a batch of three files whose second transfer
fails, the first file is stored, the third is never attempted, no link is
requested, and the returned error names the second file. -/
theorem uploadFiles_scenarioD :
    uploadFiles scenarioDEnv scenarioDFiles "docs".toList =
      ([.attempt "docs/one.txt".toList,
        .uploaded "docs/one.txt".toList "docs/one.txt".toList,
        .attempt "docs/two.txt".toList],
        .error ("failed to upload docs/two.txt: ".toList ++
          "unable to upload file docs/two.txt: connection reset".toList)) := by
  decide

/-- C8, an instance: a batch of three files whose first signing call fails,
with the printed lines written out: the first key gets its warning and the
two later keys get their links. -/
theorem uploadFiles_links_witness :
    (signFailsEnv.newUploader = none ∧ signFailsEnv.sourceStat = .ok true ∧
      ∀ j, j < scenarioDFiles.length → Stores (signFailsEnv.transfer j)) ∧
    linkReports (uploadFiles signFailsEnv scenarioDFiles "docs".toList).1 =
      [.warning "docs/one.txt".toList "no credentials".toList,
       .linkLine 2 "docs/two.txt".toList "https://r2.example/docs/two.txt".toList,
       .linkLine 3 "docs/three.txt".toList "https://r2.example/docs/three.txt".toList] ∧
    ((uploadFiles signFailsEnv scenarioDFiles "docs".toList).2 = .ok () ∧
      uploads (uploadFiles signFailsEnv scenarioDFiles "docs".toList).1 =
        scenarioDFiles.map
          (fun f => (f.Path, uploadKey f.Path (if true then Base "docs".toList else []))) ∧
      attempts (uploadFiles signFailsEnv scenarioDFiles "docs".toList).1 =
        scenarioDFiles.map (fun f => f.Path) ∧
      linkRequests (uploadFiles signFailsEnv scenarioDFiles "docs".toList).1 =
        scenarioDFiles.map
          (fun f => uploadKey f.Path (if true then Base "docs".toList else [])) ∧
      linkReports (uploadFiles signFailsEnv scenarioDFiles "docs".toList).1 =
        ((scenarioDFiles.map
          (fun f => uploadKey f.Path (if true then Base "docs".toList else []))).enum).map
          (linkReport signFailsEnv)) :=
  ⟨⟨rfl, rfl, fun _ _ => Stores_readWhole 10 1700000000 (by decide)⟩, by decide,
    uploadFiles_links signFailsEnv scenarioDFiles "docs".toList true rfl rfl
      (fun _ _ => Stores_readWhole 10 1700000000 (by decide))⟩

/-- C9, an instance: the directory `photos`, with the returned descriptors
written out. -/
theorem getFilesInfo_spec_witness :
    getFilesInfo photosFS "photos/".toList =
      .ok [{ Path := "photos/a (1).jpg".toList, Size := 2048 },
           { Path := "photos/b.jpg".toList, Size := 1024 },
           { Path := "photos/sub/c.png".toList, Size := 10 }] ∧
    ((∀ e ∈ ["photos".toList], NameSeg e) ∧
      cleanPathOf photosFS "photos/".toList = pathOf false ["photos".toList] ∧
      photosTree.namesOk) ∧
    ∃ node, photosFS.entry (cleanPathOf photosFS "photos/".toList) = .ok node ∧
      ((∃ size, node = .file size ∧
          [{ Path := "photos/a (1).jpg".toList, Size := 2048 },
           { Path := "photos/b.jpg".toList, Size := 1024 },
           { Path := "photos/sub/c.png".toList, Size := 10 }] =
            [{ Path := cleanPathOf photosFS "photos/".toList, Size := size : FileInfo }]) ∨
        (∃ entries, node = .dir entries ∧
          List.Forall₂ (DescribesAt (cleanPathOf photosFS "photos/".toList) node)
            [{ Path := "photos/a (1).jpg".toList, Size := 2048 },
             { Path := "photos/b.jpg".toList, Size := 1024 },
             { Path := "photos/sub/c.png".toList, Size := 10 }] node.fileAddrs ∧
          node.fileAddrs.Nodup ∧
          (∀ a, a ∈ node.fileAddrs ↔
            ∃ p size,
              descend (cleanPathOf photosFS "photos/".toList) node a = some (p, .file size)) ∧
          (∀ a ∈ node.fileAddrs, a ≠ []) ∧
          [{ Path := "photos/a (1).jpg".toList, Size := 2048 },
           { Path := "photos/b.jpg".toList, Size := 1024 },
           { Path := "photos/sub/c.png".toList, Size := 10 : FileInfo }].length =
            node.countFiles ∧
          ∀ (rooted : Bool) (segs : List Str), segs ≠ [] → (∀ e ∈ segs, NameSeg e) →
            cleanPathOf photosFS "photos/".toList = pathOf rooted segs → node.namesOk →
            ∀ f ∈
              [{ Path := "photos/a (1).jpg".toList, Size := 2048 },
               { Path := "photos/b.jpg".toList, Size := 1024 },
               { Path := "photos/sub/c.png".toList, Size := 10 : FileInfo }],
              (cleanPathOf photosFS "photos/".toList ++ [Separator]) <+: f.Path)) :=
  ⟨rfl,
    ⟨by decide, by decide, by
      simp only [photosTree, Node.namesOk, Node.namesOk.allOk, and_true]
      decide⟩,
    getFilesInfo_spec photosFS "photos/".toList _ rfl⟩


end R2Uploader
